import Mathlib

/-!
Shallow embedding of the pipeline build planner of this repository
(server/procBuilder.go) together with theorems settling the frozen claims
about it.  Go strings are modelled as lists of characters, Go maps as
association lists, Go slices as lists, and the external collaborators
(matrix parser, yaml parser, linter, compiler, envsubst evaluator,
metadata environment methods) as oracle function fields quantified over
in the theorems.
-/

/-- Go strings are modelled as lists of characters (byte-transparent). -/
abbrev GoStr := List Char

/-- Convert a Lean string literal into the Go string model. -/
def gs (s : String) : GoStr := s.toList

/-- Go strings.TrimPrefix: remove the leading prefix if present, else return
the string unchanged. -/
def goTrimPrefix (s pre : GoStr) : GoStr :=
  if pre.isPrefixOf s then s.drop pre.length else s

/-- Go strings.TrimSuffix: remove the trailing suffix if present, else return
the string unchanged. -/
def goTrimSuffix (s suf : GoStr) : GoStr :=
  if suf.isSuffixOf s then s.take (s.length - suf.length) else s

/-- Embedding of sanitizePath (procBuilder.go): strip one trailing ".yml",
then one leading config-folder prefix, then one leading ".". -/
def sanitizePath (path configFolder : GoStr) : GoStr :=
  goTrimPrefix (goTrimPrefix (goTrimSuffix path (gs ".yml")) configFolder) (gs ".")

example : sanitizePath (gs "ci.yml") (gs "") = gs "ci" := by decide

example : sanitizePath (gs "a.yml.yml") (gs "") = gs "a.yml" := by decide

/-- model.Proc status constants used by the planner. -/
inductive Status where
  | pending
  | skipped
  | running
  | success
  | failure
  deriving DecidableEq, Repr

/-- matrix.Axis: a mapping from variable name to value, modelled as an
association list. -/
abbrev Axis := List (GoStr × GoStr)

/-- model.Proc, restricted to the fields the planner reads or writes. -/
structure Proc where
  id : Int := 0
  buildID : Int := 0
  pid : Nat := 0
  ppid : Nat := 0
  pgid : Nat := 0
  name : GoStr := []
  state : Status := .pending
  environ : Axis := []
  deriving DecidableEq, Repr

/-- backend.Step, restricted to the alias read by the flattener. -/
structure Step where
  stepAlias : GoStr := []
  deriving DecidableEq, Repr

/-- backend.Stage: an ordered list of steps. -/
structure Stage where
  steps : List Step := []
  deriving DecidableEq, Repr

/-- backend.Config, restricted to the stage tree the planner consumes. -/
structure BackendConfig where
  stages : List Stage := []
  deriving DecidableEq, Repr

/-- procBuilder.go buildItem.  Labels is an Option so that a nil Go map and
an empty Go map stay distinguishable. -/
structure buildItem where
  proc : Proc := {}
  platform : GoStr := []
  labels : Option (List (GoStr × GoStr)) := none
  dependsOn : List GoStr := []
  runsOn : List GoStr := []
  config : BackendConfig := {}
  deriving DecidableEq, Repr

/-- Embedding of containsItemWithName (procBuilder.go): true when some item
in the list has the given process name. -/
def containsItemWithName (name : GoStr) (items : List buildItem) : Bool :=
  items.any (fun item => name == item.proc.name)

/-- The itemsToRemove list computed inside filterItemsWithMissingDependencies:
one copy of an item per dependency name of it that no item in the list
carries. -/
def itemsToRemove (items : List buildItem) : List buildItem :=
  items.flatMap (fun item =>
    (item.dependsOn.filter (fun dep => !containsItemWithName dep items)).map
      (fun _ => item))

/-- Recursion core of filterItemsWithMissingDependencies.  The Go function
recurses on a strictly shorter list whenever it removes something, so the
recursion depth is bounded by the length of the list, used here as
structural fuel. -/
def filterItemsCore : Nat → List buildItem → List buildItem
  | 0, items => items
  | fuel + 1, items =>
    let toRemove := itemsToRemove items
    if 0 < toRemove.length then
      filterItemsCore fuel
        (items.filter (fun item => !containsItemWithName item.proc.name toRemove))
    else items

/-- Embedding of filterItemsWithMissingDependencies (procBuilder.go). -/
def filterItemsWithMissingDependencies (items : List buildItem) : List buildItem :=
  filterItemsCore items.length items

theorem containsItemWithName_eq_true (n : GoStr) (items : List buildItem) :
    containsItemWithName n items = true ↔ ∃ i ∈ items, n = i.proc.name := by
  simp [containsItemWithName, List.any_eq_true]

theorem containsItemWithName_eq_false (n : GoStr) (items : List buildItem) :
    containsItemWithName n items = false ↔ ∀ i ∈ items, n ≠ i.proc.name := by
  simp [containsItemWithName, List.any_eq_false]

theorem mem_itemsToRemove (items : List buildItem) (i : buildItem) :
    i ∈ itemsToRemove items ↔
      i ∈ items ∧ ∃ d ∈ i.dependsOn, containsItemWithName d items = false := by
  constructor
  · intro h
    simp only [itemsToRemove, List.mem_flatMap, List.mem_map, List.mem_filter] at h
    obtain ⟨a, ha, d, hd, rfl⟩ := h
    exact ⟨ha, d, hd.1, by simpa using hd.2⟩
  · rintro ⟨hi, d, hd, hc⟩
    simp only [itemsToRemove, List.mem_flatMap, List.mem_map, List.mem_filter]
    exact ⟨i, hi, d, ⟨hd, by simp [hc]⟩, rfl⟩

theorem itemsToRemove_subset (items : List buildItem) :
    ∀ i ∈ itemsToRemove items, i ∈ items := by
  intro i hi
  exact ((mem_itemsToRemove items i).1 hi).1

theorem filtered_length_lt (items : List buildItem)
    (h : 0 < (itemsToRemove items).length) :
    (items.filter
      (fun item => !containsItemWithName item.proc.name (itemsToRemove items))).length
      < items.length := by
  obtain ⟨i0, hi0⟩ := List.exists_mem_of_length_pos h
  have hmem : i0 ∈ items := itemsToRemove_subset items i0 hi0
  have hcontains : containsItemWithName i0.proc.name (itemsToRemove items) = true :=
    (containsItemWithName_eq_true _ _).2 ⟨i0, hi0, rfl⟩
  have := List.length_filter_lt_length_iff_exists
    (l := items) (p := fun item => !containsItemWithName item.proc.name (itemsToRemove items))
  refine this.2 ⟨i0, hmem, ?_⟩
  simp [hcontains]

theorem filterItemsCore_nil (fuel : Nat) : filterItemsCore fuel [] = [] := by
  cases fuel with
  | zero => rfl
  | succ n => simp [filterItemsCore, itemsToRemove]

theorem filterItemsCore_congr :
    ∀ f1 f2 : Nat, ∀ items : List buildItem,
      items.length ≤ f1 → items.length ≤ f2 →
      filterItemsCore f1 items = filterItemsCore f2 items := by
  intro f1
  induction f1 with
  | zero =>
    intro f2 items h1 _
    have : items = [] := List.eq_nil_of_length_eq_zero (Nat.le_zero.1 h1)
    subst this
    simp [filterItemsCore_nil]
  | succ n ih =>
    intro f2 items h1 h2
    cases f2 with
    | zero =>
      have : items = [] := List.eq_nil_of_length_eq_zero (Nat.le_zero.1 h2)
      subst this
      simp [filterItemsCore_nil]
    | succ m =>
      simp only [filterItemsCore]
      by_cases hp : 0 < (itemsToRemove items).length
      · simp only [hp, if_true]
        have hlt := filtered_length_lt items hp
        exact ih m _ (Nat.le_of_lt_succ (Nat.lt_of_lt_of_le hlt h1))
          (Nat.le_of_lt_succ (Nat.lt_of_lt_of_le hlt h2))
      · simp [hp]

/-- Canonical unfolding of the dependency filter, matching the Go source:
if any item has a missing dependency, drop every item whose name occurs on
the removal list and recurse; otherwise return the items unchanged. -/
theorem filterItems_eq (items : List buildItem) :
    filterItemsWithMissingDependencies items =
      if 0 < (itemsToRemove items).length then
        filterItemsWithMissingDependencies
          (items.filter
            (fun item => !containsItemWithName item.proc.name (itemsToRemove items)))
      else items := by
  cases items with
  | nil => simp [filterItemsWithMissingDependencies, filterItemsCore, itemsToRemove]
  | cons a l =>
    show filterItemsCore (a :: l).length (a :: l) = _
    simp only [List.length_cons, filterItemsCore]
    by_cases hp : 0 < (itemsToRemove (a :: l)).length
    · simp only [hp, if_true]
      exact filterItemsCore_congr _ _ _
        (Nat.le_of_lt_succ (filtered_length_lt _ hp)) (Nat.le_refl _)
    · simp [hp]

theorem list_length_strong_ind {α : Type} (motive : List α → Prop)
    (h : ∀ l, (∀ l2, l2.length < l.length → motive l2) → motive l) :
    ∀ l, motive l := by
  have key : ∀ n : Nat, ∀ l : List α, l.length ≤ n → motive l := by
    intro n
    induction n with
    | zero =>
      intro l hl
      exact h l (fun l2 h2 => absurd (Nat.lt_of_lt_of_le h2 hl) (Nat.not_lt_zero _))
    | succ n ih =>
      intro l hl
      exact h l (fun l2 h2 => ih l2 (Nat.le_of_lt_succ (Nat.lt_of_lt_of_le h2 hl)))
  exact fun l => key l.length l (Nat.le_refl _)

theorem filterItems_sublist :
    ∀ items, (filterItemsWithMissingDependencies items).Sublist items := by
  refine list_length_strong_ind
    (fun items => (filterItemsWithMissingDependencies items).Sublist items) ?_
  intro items ih
  rw [filterItems_eq]
  by_cases hp : 0 < (itemsToRemove items).length
  · simp only [hp, if_true]
    exact (ih _ (filtered_length_lt items hp)).trans (List.filter_sublist items)
  · simp [hp]

theorem filterItems_closed :
    ∀ items, ∀ i ∈ filterItemsWithMissingDependencies items, ∀ d ∈ i.dependsOn,
      containsItemWithName d (filterItemsWithMissingDependencies items) = true := by
  refine list_length_strong_ind
    (fun items => ∀ i ∈ filterItemsWithMissingDependencies items, ∀ d ∈ i.dependsOn,
      containsItemWithName d (filterItemsWithMissingDependencies items) = true) ?_
  intro items ih
  rw [filterItems_eq]
  by_cases hp : 0 < (itemsToRemove items).length
  · simp only [hp, if_true]
    exact ih _ (filtered_length_lt items hp)
  · simp only [hp, if_false]
    intro i hi d hd
    cases hc : containsItemWithName d items with
    | true => rfl
    | false =>
      exfalso
      have hmem : i ∈ itemsToRemove items :=
        (mem_itemsToRemove items i).2 ⟨hi, d, hd, hc⟩
      exact hp (List.length_pos_of_mem hmem)

theorem filterItems_saturated :
    ∀ items, ∀ i ∈ filterItemsWithMissingDependencies items, ∀ j ∈ items,
      j.proc.name = i.proc.name → j ∈ filterItemsWithMissingDependencies items := by
  refine list_length_strong_ind
    (fun items => ∀ i ∈ filterItemsWithMissingDependencies items, ∀ j ∈ items,
      j.proc.name = i.proc.name → j ∈ filterItemsWithMissingDependencies items) ?_
  intro items ih
  rw [filterItems_eq]
  by_cases hp : 0 < (itemsToRemove items).length
  · simp only [hp, if_true]
    intro i hi j hj hname
    have hifil : i ∈ items.filter
        (fun item => !containsItemWithName item.proc.name (itemsToRemove items)) :=
      (filterItems_sublist _).subset hi
    have hipred := (List.mem_filter.1 hifil).2
    have hjfil : j ∈ items.filter
        (fun item => !containsItemWithName item.proc.name (itemsToRemove items)) := by
      refine List.mem_filter.2 ⟨hj, ?_⟩
      rw [hname]
      exact hipred
    exact ih _ (filtered_length_lt items hp) i hi j hjfil hname
  · simp only [hp, if_false]
    intro _ _ j hj _
    exact hj

theorem filterItems_maximal :
    ∀ items, ∀ T : List buildItem,
      (∀ x ∈ T, x ∈ items) →
      (∀ i ∈ T, ∀ d ∈ i.dependsOn, containsItemWithName d T = true) →
      (∀ i ∈ T, ∀ j ∈ items, j.proc.name = i.proc.name → j ∈ T) →
      ∀ x ∈ T, x ∈ filterItemsWithMissingDependencies items := by
  refine list_length_strong_ind
    (fun items => ∀ T : List buildItem,
      (∀ x ∈ T, x ∈ items) →
      (∀ i ∈ T, ∀ d ∈ i.dependsOn, containsItemWithName d T = true) →
      (∀ i ∈ T, ∀ j ∈ items, j.proc.name = i.proc.name → j ∈ T) →
      ∀ x ∈ T, x ∈ filterItemsWithMissingDependencies items) ?_
  intro items ih T hTsub hTclosed hTsat
  rw [filterItems_eq]
  by_cases hp : 0 < (itemsToRemove items).length
  · simp only [hp, if_true]
    have hTfil : ∀ x ∈ T, x ∈ items.filter
        (fun item => !containsItemWithName item.proc.name (itemsToRemove items)) := by
      intro x hx
      refine List.mem_filter.2 ⟨hTsub x hx, ?_⟩
      cases hc : containsItemWithName x.proc.name (itemsToRemove items) with
      | false => rfl
      | true =>
        exfalso
        obtain ⟨j, hjrem, hjname⟩ := (containsItemWithName_eq_true _ _).1 hc
        obtain ⟨hjitems, d, hd, hdc⟩ := (mem_itemsToRemove items j).1 hjrem
        have hjT : j ∈ T := hTsat x hx j hjitems hjname.symm
        have hdT := hTclosed j hjT d hd
        obtain ⟨t, htT, htname⟩ := (containsItemWithName_eq_true _ _).1 hdT
        have : containsItemWithName d items = true :=
          (containsItemWithName_eq_true _ _).2 ⟨t, hTsub t htT, htname⟩
        rw [this] at hdc
        cases hdc
    refine ih _ (filtered_length_lt items hp) T hTfil hTclosed ?_
    intro i hi j hj hname
    exact hTsat i hi j (List.mem_filter.1 hj).1 hname
  · simp only [hp, if_false]
    exact hTsub

/-- C2 (corrected, counterexample): the claim says the resolver returns the
greatest fixed point of the item-level rule, so every closed subset of the
items must survive.  With two items both named "a", one depending on the
absent name "b" and one with no dependencies at all, the singleton of the
dependency-free item is closed, yet the code removes both items (removal is
by name) and returns the empty list. -/
theorem C2_counterexample :
    filterItemsWithMissingDependencies
        [{ proc := { name := gs "a" }, dependsOn := [gs "b"] },
         { proc := { name := gs "a" } }] = [] ∧
    (∀ i ∈ [({ proc := { name := gs "a" } } : buildItem)], ∀ d ∈ i.dependsOn,
      containsItemWithName d [({ proc := { name := gs "a" } } : buildItem)] = true) ∧
    ({ proc := { name := gs "a" } } : buildItem) ∈
      [{ proc := { name := gs "a" }, dependsOn := [gs "b"] },
       { proc := { name := gs "a" } }] := by
  refine ⟨by decide, by decide, by decide⟩

/-- C2 (amended): the dependency resolver returns an order-preserving subset
(sublist) of the items that is closed (every surviving item's DependsOn
names are names of surviving items), name-saturated (any item of the input
sharing a name with a survivor also survives), and greatest among all such
subsets: every closed and name-saturated subset of the items is contained in
the result.  Removal therefore cascades transitively, but by name rather
than by item identity, and no error is raised (the function is total). -/
theorem C2_greatest_name_saturated_closed (items : List buildItem) :
    (filterItemsWithMissingDependencies items).Sublist items ∧
    (∀ i ∈ filterItemsWithMissingDependencies items, ∀ d ∈ i.dependsOn,
      containsItemWithName d (filterItemsWithMissingDependencies items) = true) ∧
    (∀ i ∈ filterItemsWithMissingDependencies items, ∀ j ∈ items,
      j.proc.name = i.proc.name → j ∈ filterItemsWithMissingDependencies items) ∧
    (∀ T : List buildItem,
      (∀ x ∈ T, x ∈ items) →
      (∀ i ∈ T, ∀ d ∈ i.dependsOn, containsItemWithName d T = true) →
      (∀ i ∈ T, ∀ j ∈ items, j.proc.name = i.proc.name → j ∈ T) →
      ∀ x ∈ T, x ∈ filterItemsWithMissingDependencies items) :=
  ⟨filterItems_sublist items, filterItems_closed items, filterItems_saturated items,
   filterItems_maximal items⟩

/-- C2 witness: the amended theorem applied at a concrete one-item list with
no dependencies, whose maximality part shows the item survives. -/
theorem C2_witness :
    ({ proc := { name := gs "b" } } : buildItem) ∈
      filterItemsWithMissingDependencies [{ proc := { name := gs "b" } }] :=
  (C2_greatest_name_saturated_closed [{ proc := { name := gs "b" } }]).2.2.2
    [{ proc := { name := gs "b" } }]
    (by decide) (by decide) (by decide)
    { proc := { name := gs "b" } } (by decide)

/-- C9: dependency pruning removes items by name, not by identity.  If some
item with a given name has a dependency name carried by no item of the list,
then every item with that same name is absent from the resolver's result,
including items whose own dependencies all resolve. -/
theorem C9_removal_by_name (items : List buildItem) (n : GoStr) (j : buildItem)
    (hj : j ∈ items) (hjname : j.proc.name = n)
    (d : GoStr) (hd : d ∈ j.dependsOn) (hdc : containsItemWithName d items = false)
    (i : buildItem) (hi : i ∈ items) (hiname : i.proc.name = n) :
    i ∉ filterItemsWithMissingDependencies items := by
  have hjrem : j ∈ itemsToRemove items := (mem_itemsToRemove items j).2 ⟨hj, d, hd, hdc⟩
  have hp : 0 < (itemsToRemove items).length := List.length_pos_of_mem hjrem
  rw [filterItems_eq]
  simp only [hp, if_true]
  intro hmem
  have hifil : i ∈ items.filter
      (fun item => !containsItemWithName item.proc.name (itemsToRemove items)) :=
    (filterItems_sublist _).subset hmem
  have hpred := (List.mem_filter.1 hifil).2
  have hcon : containsItemWithName i.proc.name (itemsToRemove items) = true :=
    (containsItemWithName_eq_true _ _).2 ⟨j, hjrem, by rw [hiname, hjname]⟩
  rw [hcon] at hpred
  simp at hpred

/-- C9 witness: with two items named "a", one of them depending on the
absent name "b", the dependency-free item named "a" is removed as well. -/
theorem C9_witness :
    ({ proc := { name := gs "a" } } : buildItem) ∉
      filterItemsWithMissingDependencies
        [{ proc := { name := gs "a" }, dependsOn := [gs "b"] },
         { proc := { name := gs "a" } }] :=
  C9_removal_by_name _ (gs "a")
    { proc := { name := gs "a" }, dependsOn := [gs "b"] }
    (by decide) (by decide)
    (gs "b") (by decide) (by decide)
    { proc := { name := gs "a" } } (by decide) (by decide)

/-- C8 (corrected, counterexample): sanitizing is not idempotent for every
path.  TrimSuffix strips a single ".yml" occurrence, so sanitizing
"a.yml.yml" once yields "a.yml" and sanitizing it a second time strips
further, down to "a". -/
theorem C8_counterexample :
    sanitizePath (sanitizePath (gs "a.yml.yml") (gs "")) (gs "") = gs "a" ∧
    sanitizePath (gs "a.yml.yml") (gs "") = gs "a.yml" ∧
    gs "a" ≠ gs "a.yml" := by
  refine ⟨by decide, by decide, by decide⟩

/-- C8 (amended): sanitizing twice equals sanitizing once for every path
whose once-sanitized form is already fully trimmed, i.e. is a fixed point of
each of the three trims (no remaining ".yml" suffix, no remaining
config-folder prefix, no remaining "." prefix).  In general a second
application may strip further. -/
theorem C8_sanitizePath_conditional_idempotent (x c : GoStr)
    (h1 : goTrimSuffix (sanitizePath x c) (gs ".yml") = sanitizePath x c)
    (h2 : goTrimPrefix (sanitizePath x c) c = sanitizePath x c)
    (h3 : goTrimPrefix (sanitizePath x c) (gs ".") = sanitizePath x c) :
    sanitizePath (sanitizePath x c) c = sanitizePath x c := by
  show goTrimPrefix (goTrimPrefix (goTrimSuffix (sanitizePath x c) (gs ".yml")) c)
      (gs ".") = sanitizePath x c
  rw [h1, h2, h3]

/-- Lookup in a Go map modelled as an association list (first match). -/
def lookupEnv (environ : List (GoStr × GoStr)) (k : GoStr) : Option GoStr :=
  match environ with
  | [] => none
  | (k2, v) :: rest => if k = k2 then some v else lookupEnv rest k

/-- Hexadecimal digit characters as used by Go strconv quoting (lowercase). -/
def hexDigitChar (n : Nat) : Char := (gs "0123456789abcdef").getD n '0'

/-- The k-digit lowercase hexadecimal rendering of n, most significant
digit first. -/
def hexDigits (k n : Nat) : List Char :=
  ((List.range k).reverse).map (fun i => hexDigitChar (n / 16 ^ i % 16))

/-- Model of Go %q escaping of one rune (fmt.Sprintf("%q", s) delegates to
strconv.Quote): a quote or backslash is backslash-escaped, printable ASCII
passes through, the standard control escapes are used for them, and any
other rune is hex-escaped.  Printable non-ASCII runes, which Go would pass
through, are conservatively hex-escaped here; the planner only feeds this
with configuration text. -/
def escapeRune (c : Char) : List Char :=
  if c = '"' ∨ c = '\\' then ['\\', c]
  else if 0x20 ≤ c.toNat ∧ c.toNat < 0x7f then [c]
  else if c = '\x07' then ['\\', 'a']
  else if c = '\x08' then ['\\', 'b']
  else if c = '\x0c' then ['\\', 'f']
  else if c = '\n' then ['\\', 'n']
  else if c = '\r' then ['\\', 'r']
  else if c = '\t' then ['\\', 't']
  else if c = '\x0b' then ['\\', 'v']
  else if c.toNat < 0x80 then ['\\', 'x'] ++ hexDigits 2 c.toNat
  else if c.toNat < 0x10000 then ['\\', 'u'] ++ hexDigits 4 c.toNat
  else ['\\', 'U'] ++ hexDigits 8 c.toNat

/-- Model of fmt.Sprintf("%q", s): the double-quoted Go string literal form
of s. -/
def goQuote (s : GoStr) : GoStr := '"' :: (s.flatMap escapeRune ++ ['"'])

/-- The substitution callback defined inside envsubst_ (procBuilder.go):
look the name up in the merged environment (a missing key yields the Go
zero value, the empty string) and replace a value containing a newline by
its %q quoted form. -/
def envsubstMapper (environ : List (GoStr × GoStr)) (name : GoStr) : GoStr :=
  let env := (lookupEnv environ name).getD []
  if ( '\n' ) ∈ env then goQuote env else env

theorem hexDigitChar_ne_newline (n : Nat) : hexDigitChar n ≠ '\n' := by
  unfold hexDigitChar
  rcases Nat.lt_or_ge n 16 with h | h
  · interval_cases n <;> decide
  · rw [List.getD_eq_default]
    · decide
    · have hlen : (gs "0123456789abcdef").length = 16 := by decide
      omega

theorem newline_not_mem_escapeRune (c : Char) : ( '\n' ) ∉ escapeRune c := by
  intro hm
  by_cases h1 : c = '"' ∨ c = '\\'
  · rcases h1 with rfl | rfl <;> revert hm <;> decide
  by_cases h2 : 0x20 ≤ c.toNat ∧ c.toNat < 0x7f
  · rw [escapeRune, if_neg h1, if_pos h2] at hm
    cases List.mem_singleton.1 hm
    exact absurd h2 (by decide)
  by_cases h3 : c = '\x07'
  · subst h3; revert hm; decide
  by_cases h4 : c = '\x08'
  · subst h4; revert hm; decide
  by_cases h5 : c = '\x0c'
  · subst h5; revert hm; decide
  by_cases h6 : c = '\n'
  · subst h6; revert hm; decide
  by_cases h7 : c = '\r'
  · subst h7; revert hm; decide
  by_cases h8 : c = '\t'
  · subst h8; revert hm; decide
  by_cases h9 : c = '\x0b'
  · subst h9; revert hm; decide
  rw [escapeRune, if_neg h1, if_neg h2, if_neg h3, if_neg h4, if_neg h5, if_neg h6,
    if_neg h7, if_neg h8, if_neg h9] at hm
  have hhex : ∀ k n : Nat, ( '\n' ) ∉ hexDigits k n := by
    intro k n hmem
    obtain ⟨i, _, hi⟩ := List.mem_map.1 hmem
    exact hexDigitChar_ne_newline _ hi
  by_cases h10 : c.toNat < 0x80
  · rw [if_pos h10] at hm
    rcases List.mem_append.1 hm with hm | hm
    · revert hm; decide
    · exact hhex _ _ hm
  by_cases h11 : c.toNat < 0x10000
  · rw [if_neg h10, if_pos h11] at hm
    rcases List.mem_append.1 hm with hm | hm
    · revert hm; decide
    · exact hhex _ _ hm
  · rw [if_neg h10, if_neg h11] at hm
    rcases List.mem_append.1 hm with hm | hm
    · revert hm; decide
    · exact hhex _ _ hm

theorem newline_not_mem_goQuote (s : GoStr) : ( '\n' ) ∉ goQuote s := by
  intro h
  rcases List.mem_cons.1 h with h | h
  · cases h
  rcases List.mem_append.1 h with h | h
  · obtain ⟨c, _, hc⟩ := List.mem_flatMap.1 h
    exact newline_not_mem_escapeRune c hc
  · revert h; decide

/-- C7: the substitution callback built by envsubst_ resolves a name bound
to a newline-containing value to the value's %q quoted form — which is
single-line (no raw newline remains) and distinct from the raw multi-line
text — resolves a name absent from the merged environment to the empty
string, and resolves a bound single-line value to itself; it is a total
function, so no error can arise from resolution. -/
theorem C7_envsubst_mapper_quoting (environ : List (GoStr × GoStr)) (name : GoStr) :
    (lookupEnv environ name = none → envsubstMapper environ name = []) ∧
    (∀ v, lookupEnv environ name = some v →
      ((( '\n' ) ∉ v) → envsubstMapper environ name = v) ∧
      (( '\n' ) ∈ v →
        envsubstMapper environ name = goQuote v ∧
        ( '\n' ) ∉ goQuote v ∧
        goQuote v ≠ v)) := by
  constructor
  · intro h
    simp [envsubstMapper, h]
  · intro v hv
    constructor
    · intro hnl
      simp [envsubstMapper, hv, hnl]
    · intro hnl
      refine ⟨by simp [envsubstMapper, hv, hnl], newline_not_mem_goQuote v, ?_⟩
      intro heq
      exact newline_not_mem_goQuote v (by rw [heq]; exact hnl)

/-- C7 witness: the callback theorem applied to a missing name and to a
concrete multi-line value. -/
theorem C7_witness :
    envsubstMapper [] (gs "MISSING") = [] ∧
    envsubstMapper [(gs "K", gs "a\nb")] (gs "K") = goQuote (gs "a\nb") ∧
    ( '\n' ) ∉ goQuote (gs "a\nb") :=
  ⟨(C7_envsubst_mapper_quoting [] (gs "MISSING")).1 rfl,
   (((C7_envsubst_mapper_quoting [(gs "K", gs "a\nb")] (gs "K")).2
      (gs "a\nb") (by decide)).2 (by decide)).1,
   (((C7_envsubst_mapper_quoting [(gs "K", gs "a\nb")] (gs "K")).2
      (gs "a\nb") (by decide)).2 (by decide)).2.1⟩

/-- frontend.Metadata, restricted to what the planner consumes: the results
of the external Environ() and EnvironDrone() methods and the system arch
field read into the build item; the methods themselves are external, so
their results appear here as data supplied by the metadata oracle. -/
structure Metadata where
  environ : List (GoStr × GoStr) := []
  environDrone : List (GoStr × GoStr) := []
  sysArch : GoStr := []
  deriving DecidableEq, Repr

/-- Go map assignment m[k] = v on the association-list model: drop any
existing binding of k and append the new one. -/
def mapSet : List (GoStr × GoStr) → GoStr → GoStr → List (GoStr × GoStr)
  | [], k, v => [(k, v)]
  | (k1, v1) :: rest, k, v =>
    if k1 = k then mapSet rest k v else (k1, v1) :: mapSet rest k v

/-- Embedding of environmentVariables (procBuilder.go): start from the
metadata environment, overwrite with every legacy drone entry, then
overwrite with every matrix-axis entry.  The caller-supplied extra
environment (procBuilder.Envs) is not consulted here. -/
def environmentVariables (metadata : Metadata) (axis : Axis) : List (GoStr × GoStr) :=
  axis.foldl (fun m p => mapSet m p.1 p.2)
    (metadata.environDrone.foldl (fun m p => mapSet m p.1 p.2) metadata.environ)

theorem lookupEnv_mapSet (m : List (GoStr × GoStr)) (k v k2 : GoStr) :
    lookupEnv (mapSet m k v) k2 = if k2 = k then some v else lookupEnv m k2 := by
  induction m with
  | nil => rfl
  | cons p rest ih =>
    obtain ⟨k1, v1⟩ := p
    by_cases h1 : k1 = k
    · rw [mapSet, if_pos h1, ih]
      by_cases h2 : k2 = k
      · simp [h2]
      · have h3 : k2 ≠ k1 := fun hh => h2 (h1 ▸ hh)
        simp [lookupEnv, h2, h3]
    · rw [mapSet, if_neg h1]
      by_cases h2 : k2 = k1
      · have h3 : ¬ k2 = k := fun hh => h1 (h2 ▸ hh : k1 = k)
        simp [lookupEnv, h2, h3, h1]
      · simp [lookupEnv, h2, ih]

theorem lookupEnv_eq_none_of_not_mem_keys (l : List (GoStr × GoStr)) (k : GoStr)
    (h : k ∉ l.map Prod.fst) : lookupEnv l k = none := by
  induction l with
  | nil => rfl
  | cons p rest ih =>
    obtain ⟨k1, v1⟩ := p
    simp only [List.map_cons, List.mem_cons] at h
    push_neg at h
    simp [lookupEnv, h.1, ih h.2]

theorem lookupEnv_foldl_mapSet (l : List (GoStr × GoStr)) (k : GoStr)
    (hnd : (l.map Prod.fst).Nodup) :
    ∀ start : List (GoStr × GoStr),
      lookupEnv (l.foldl (fun m p => mapSet m p.1 p.2) start) k =
        match lookupEnv l k with
        | some v => some v
        | none => lookupEnv start k := by
  induction l with
  | nil => intro start; simp [lookupEnv]
  | cons p rest ih =>
    intro start
    obtain ⟨k1, v1⟩ := p
    simp only [List.map_cons, List.nodup_cons] at hnd
    rw [List.foldl_cons, ih hnd.2]
    by_cases hk : k = k1
    · subst hk
      have hrest : lookupEnv rest k = none :=
        lookupEnv_eq_none_of_not_mem_keys rest k hnd.1
      simp [lookupEnv, hrest, lookupEnv_mapSet]
    · simp [lookupEnv, hk, lookupEnv_mapSet]

/-- C6 (amended): the merged environment used by the variable substitution
step resolves a key to the matrix-axis value when the axis binds it,
otherwise to the legacy drone metadata value, otherwise to the plain
metadata value (last-writer-wins with the axis written last).  The
caller-supplied extra environment takes no part in substitution: it is only
handed to the compiler. -/
theorem C6_substitution_env_precedence (md : Metadata) (axis : Axis) (k : GoStr)
    (hax : (axis.map Prod.fst).Nodup) (hdr : (md.environDrone.map Prod.fst).Nodup) :
    lookupEnv (environmentVariables md axis) k =
      match lookupEnv axis k with
      | some v => some v
      | none =>
        match lookupEnv md.environDrone k with
        | some v => some v
        | none => lookupEnv md.environ k := by
  unfold environmentVariables
  rw [lookupEnv_foldl_mapSet axis k hax, lookupEnv_foldl_mapSet md.environDrone k hdr]

/-- C6 witness: the precedence theorem applied at a concrete metadata map,
drone map, and axis all binding the key K; the axis value wins. -/
theorem C6_witness :
    lookupEnv
      (environmentVariables
        { environ := [(gs "K", gs "meta")],
          environDrone := [(gs "K", gs "drone")] }
        [(gs "K", gs "axis")]) (gs "K") = some (gs "axis") :=
  (C6_substitution_env_precedence
    { environ := [(gs "K", gs "meta")], environDrone := [(gs "K", gs "drone")] }
    [(gs "K", gs "axis")] (gs "K") (by decide) (by decide)).trans (by decide)

/-- C8 witness: the amended idempotence applied at the concrete path
"ci.yml" with an empty config folder. -/
theorem C8_witness :
    sanitizePath (sanitizePath (gs "ci.yml") (gs "")) (gs "") =
      sanitizePath (gs "ci.yml") (gs "") :=
  C8_sanitizePath_conditional_idempotent (gs "ci.yml") (gs "")
    (by decide) (by decide) (by decide)

/-- remote.FileMeta: a named pipeline document. -/
structure FileMeta where
  name : GoStr := []
  data : GoStr := []
  deriving DecidableEq, Repr

/-- model.Repo, restricted to the fields the planner reads. -/
structure Repo where
  config : GoStr := []
  isTrusted : Bool := false
  isPrivate : Bool := false
  link : GoStr := []
  deriving DecidableEq, Repr

/-- model.Build, restricted to the fields the planner reads plus the Procs
list the flattener appends to. -/
structure BuildRec where
  id : Int := 0
  branch : GoStr := []
  event : GoStr := []
  procs : List Proc := []
  deriving DecidableEq, Repr

/-- model.Netrc. -/
structure Netrc where
  login : GoStr := []
  password : GoStr := []
  machine : GoStr := []
  deriving DecidableEq, Repr

/-- model.Secret; the external Match method's behavior is carried as a
predicate field. -/
structure Secret where
  name : GoStr := []
  value : GoStr := []
  images : List GoStr := []
  matchEvent : GoStr → Bool := fun _ => false

/-- model.Registry, restricted to the fields the planner reads. -/
structure Registry where
  address : GoStr := []
  username : GoStr := []
  password : GoStr := []
  email : GoStr := []
  deriving DecidableEq, Repr

/-- compiler.Secret as constructed by toInternalRepresentation. -/
structure CompilerSecret where
  name : GoStr := []
  value : GoStr := []
  matchImages : List GoStr := []
  deriving DecidableEq, Repr

/-- compiler.Registry as constructed by toInternalRepresentation. -/
structure CompilerRegistry where
  hostname : GoStr := []
  username : GoStr := []
  password : GoStr := []
  email : GoStr := []
  deriving DecidableEq, Repr

/-- yaml.Config, restricted to the fields the planner reads; the branch
filter's Match method is external and is carried as a predicate field. -/
structure YamlConfig where
  branchesMatch : GoStr → Bool := fun _ => true
  platform : GoStr := []
  labels : Option (List (GoStr × GoStr)) := none
  dependsOn : List GoStr := []
  runsOn : List GoStr := []

/-- procBuilder (procBuilder.go): the planner's input bundle. -/
structure procBuilder where
  repo : Repo := {}
  curr : BuildRec := {}
  last : BuildRec := {}
  netrc : Netrc := {}
  secs : List Secret := []
  regs : List Registry := []
  link : GoStr := []
  yamls : List FileMeta := []
  envs : List (GoStr × GoStr) := []

/-- Everything toInternalRepresentation hands to the external compiler:
the parsed definition, the merged substitution environment, the
caller-supplied extra environment (compiler.WithEnviron(b.Envs)), the
metadata, the event-filtered secrets, the registries, the netrc bundle and
privacy flag, the repository link feeding the workspace option, and the
process id feeding the uniqueness prefix. -/
structure CompilerInput where
  parsed : YamlConfig
  environ : List (GoStr × GoStr) := []
  envs : List (GoStr × GoStr) := []
  metadata : Metadata := {}
  secrets : List CompilerSecret := []
  registries : List CompilerRegistry := []
  netrc : Netrc := {}
  isPrivate : Bool := false
  repoLink : GoStr := []
  procID : Int := 0

/-- The external collaborators of the planner, shallowly embedded as oracle
functions: the matrix parser, the yaml parser, the linter (trusted flag
first), the envsubst evaluator, the composition of metadataFromStruct with
the external Environ()/EnvironDrone() metadata methods, the external
SetPlatform method, and the yaml compiler. -/
structure Oracles where
  parseMatrix : GoStr → Except GoStr (List Axis)
  parseYaml : GoStr → Except GoStr YamlConfig
  lint : Bool → YamlConfig → Option GoStr
  envsubstEval : GoStr → (GoStr → GoStr) → Except GoStr GoStr
  metadataFromStruct : Repo → BuildRec → BuildRec → Proc → GoStr → Metadata
  setPlatform : Metadata → GoStr → Metadata
  compile : CompilerInput → BackendConfig

/-- Embedding of envsubst_ (procBuilder.go): delegate to the external
envsubst evaluator, passing the quoting callback over the merged
environment. -/
def envsubst_ (o : Oracles) (y : GoStr) (environ : List (GoStr × GoStr)) :
    Except GoStr GoStr :=
  o.envsubstEval y (envsubstMapper environ)

/-- Embedding of toInternalRepresentation (procBuilder.go): filter secrets
by the current build event, convert registries, and hand everything to the
external compiler. -/
def toInternalRepresentation (o : Oracles) (b : procBuilder) (parsed : YamlConfig)
    (environ : List (GoStr × GoStr)) (metadata : Metadata) (procID : Int) :
    BackendConfig :=
  let secrets := (b.secs.filter (fun sec => sec.matchEvent b.curr.event)).map
    (fun sec =>
      { name := sec.name, value := sec.value, matchImages := sec.images :
        CompilerSecret })
  let registries := b.regs.map (fun reg =>
    { hostname := reg.address, username := reg.username, password := reg.password,
      email := reg.email : CompilerRegistry })
  o.compile
    { parsed := parsed, environ := environ, envs := b.envs, metadata := metadata,
      secrets := secrets, registries := registries, netrc := b.netrc,
      isPrivate := b.repo.isPrivate, repoLink := b.repo.link, procID := procID }

/-- Tail of the loop body of Build (procBuilder.go): drop the item when the
compiled configuration has zero stages (the continue branch), otherwise
assemble the build item, replacing a nil labels map with an empty one. -/
def mkItem (parsed : YamlConfig) (proc : Proc) (ir : BackendConfig)
    (arch : GoStr) : Option buildItem :=
  if ir.stages = [] then none
  else
    let item : buildItem :=
      { proc := proc, config := ir, labels := parsed.labels,
        dependsOn := parsed.dependsOn, runsOn := parsed.runsOn, platform := arch }
    let item := if item.labels = none then { item with labels := some [] } else item
    some item

/-- The loop body of Build (procBuilder.go) for one (document, axis) pair
at the current pid sequence value: build the descriptor, the metadata and
the merged environment, substitute, parse, lint, evaluate the branch
filter, compile, and either drop the item (zero stages) or emit it. -/
def processAxis (o : Oracles) (b : procBuilder) (y : FileMeta) (axis : Axis)
    (pidSequence : Nat) : Except GoStr (Option buildItem) :=
  let proc : Proc :=
    { buildID := b.curr.id, pid := pidSequence, pgid := pidSequence,
      state := .pending, environ := axis, name := sanitizePath y.name b.repo.config }
  let metadata := o.metadataFromStruct b.repo b.curr b.last proc b.link
  let environ := environmentVariables metadata axis
  match envsubst_ o y.data environ with
  | .error e => .error e
  | .ok substituted =>
    match o.parseYaml substituted with
    | .error e => .error e
    | .ok parsed =>
      match o.lint b.repo.isTrusted parsed with
      | some lerr => .error lerr
      | none =>
        let proc := if parsed.branchesMatch b.curr.branch then proc
                    else { proc with state := .skipped }
        let metadata := o.setPlatform metadata parsed.platform
        let ir := toInternalRepresentation o b parsed environ metadata proc.id
        .ok (mkItem parsed proc ir metadata.sysArch)

/-- The parsed pipeline definition computed inside the loop body for one
(document, axis, pid) triple: the yaml parse of the substituted text. -/
def parsedOf (o : Oracles) (b : procBuilder) (y : FileMeta) (axis : Axis)
    (pidSequence : Nat) : Except GoStr YamlConfig :=
  let proc : Proc :=
    { buildID := b.curr.id, pid := pidSequence, pgid := pidSequence,
      state := .pending, environ := axis, name := sanitizePath y.name b.repo.config }
  let metadata := o.metadataFromStruct b.repo b.curr b.last proc b.link
  let environ := environmentVariables metadata axis
  match envsubst_ o y.data environ with
  | .error e => .error e
  | .ok substituted => o.parseYaml substituted

/-- The inner loop of Build over the axes of one document: the pid sequence
advances only when an item is emitted. -/
def processAxes (o : Oracles) (b : procBuilder) (y : FileMeta) :
    List Axis → Nat → Except GoStr (List buildItem × Nat)
  | [], pidSequence => .ok ([], pidSequence)
  | axis :: rest, pidSequence =>
    match processAxis o b y axis pidSequence with
    | .error e => .error e
    | .ok none => processAxes o b y rest pidSequence
    | .ok (some item) =>
      match processAxes o b y rest (pidSequence + 1) with
      | .error e => .error e
      | .ok (items, pid2) => .ok (item :: items, pid2)

/-- The outer loop of Build over the sorted documents: parse the matrix
axes (an empty result is replaced by one empty axis) and process each
axis. -/
def processYamls (o : Oracles) (b : procBuilder) :
    List FileMeta → Nat → Except GoStr (List buildItem × Nat)
  | [], pidSequence => .ok ([], pidSequence)
  | y :: rest, pidSequence =>
    match o.parseMatrix y.data with
    | .error e => .error e
    | .ok axes0 =>
      match processAxes o b y (if axes0 = [] then [[]] else axes0) pidSequence with
      | .error e => .error e
      | .ok (items1, pid1) =>
        match processYamls o b rest pid1 with
        | .error e => .error e
        | .ok (items2, pid2) => .ok (items1 ++ items2, pid2)

/-- Go string comparison (byte order), as used by sort.Sort(remote.ByName). -/
def goStrLe : GoStr → GoStr → Bool
  | [], _ => true
  | _ :: _, [] => false
  | c1 :: r1, c2 :: r2 =>
    if c1.toNat < c2.toNat then true
    else if c2.toNat < c1.toNat then false
    else goStrLe r1 r2

/-- Insertion step of the name sort. -/
def insertByName (y : FileMeta) : List FileMeta → List FileMeta
  | [] => [y]
  | z :: rest => if goStrLe y.name z.name then y :: z :: rest else z :: insertByName y rest

/-- Model of sort.Sort(remote.ByName(b.Yamls)): a comparison sort on the
document names; sort.Sort fixes no particular algorithm, so any sort
consistent with the ByName order is a faithful model. -/
def sortByName : List FileMeta → List FileMeta
  | [] => []
  | y :: rest => insertByName y (sortByName rest)

/-- Embedding of procBuilder.Build (procBuilder.go): sort the documents by
name, run the nested loops from pid sequence 1, and filter out items with
missing dependencies.  The Go pair (nil, err) is the error case of Except:
no items accompany an error. -/
def procBuilder.Build (o : Oracles) (b : procBuilder) :
    Except GoStr (List buildItem) :=
  match processYamls o b (sortByName b.yamls) 1 with
  | .error e => .error e
  | .ok (items, _) => .ok (filterItemsWithMissingDependencies items)

/-- Step loop of setBuildStepsOnBuild (procBuilder.go) within one stage:
the pid sequence is incremented before each step, and the first step's pid
becomes the group id of the stage. -/
def runSteps (buildID : Int) (itemProc : Proc) :
    List Step → Nat → Nat → List Proc × Nat
  | [], _, pidSequence => ([], pidSequence)
  | step :: rest, gid, pidSequence =>
    let pid2 := pidSequence + 1
    let gid2 := if gid = 0 then pid2 else gid
    let proc : Proc :=
      { buildID := buildID, name := step.stepAlias, pid := pid2,
        ppid := itemProc.pid, pgid := gid2,
        state := if itemProc.state = .skipped then .skipped else .pending }
    let (procs, pid3) := runSteps buildID itemProc rest gid2 pid2
    (proc :: procs, pid3)

/-- Stage loop of setBuildStepsOnBuild: each stage starts with group id 0. -/
def runStages (buildID : Int) (itemProc : Proc) :
    List Stage → Nat → List Proc × Nat
  | [], pidSequence => ([], pidSequence)
  | stage :: rest, pidSequence =>
    let (procs1, pid1) := runSteps buildID itemProc stage.steps 0 pidSequence
    let (procs2, pid2) := runStages buildID itemProc rest pid1
    (procs1 ++ procs2, pid2)

/-- Item loop of setBuildStepsOnBuild over the compiled stage trees. -/
def runItems (buildID : Int) : List buildItem → Nat → List Proc × Nat
  | [], pidSequence => ([], pidSequence)
  | item :: rest, pidSequence =>
    let (procs1, pid1) := runStages buildID item.proc item.config.stages pidSequence
    let (procs2, pid2) := runItems buildID rest pid1
    (procs1 ++ procs2, pid2)

/-- Embedding of setBuildStepsOnBuild (procBuilder.go): append all item
descriptors to the build's process list, seed the pid sequence with the
maximum item pid, then append one descriptor per compiled step. -/
def setBuildStepsOnBuild (build : BuildRec) (buildItems : List buildItem) : BuildRec :=
  let procs1 := build.procs ++ buildItems.map (fun item => item.proc)
  let pidSequence := buildItems.foldl
    (fun pidSequence item =>
      if pidSequence < item.proc.pid then item.proc.pid else pidSequence) 0
  let (stepProcs, _) := runItems build.id buildItems pidSequence
  { build with procs := procs1 ++ stepProcs }


theorem runSteps_cons (bid : Int) (p : Proc) (s : Step) (rest : List Step)
    (gid pid : Nat) :
    runSteps bid p (s :: rest) gid pid =
      (({ buildID := bid, name := s.stepAlias, pid := pid + 1, ppid := p.pid,
          pgid := if gid = 0 then pid + 1 else gid,
          state := if p.state = .skipped then .skipped else .pending } : Proc) ::
        (runSteps bid p rest (if gid = 0 then pid + 1 else gid) (pid + 1)).1,
       (runSteps bid p rest (if gid = 0 then pid + 1 else gid) (pid + 1)).2) := by
  cases h : runSteps bid p rest (if gid = 0 then pid + 1 else gid) (pid + 1) with
  | mk procs pid3 => simp [runSteps, h]

theorem runSteps_spec (bid : Int) (p : Proc) :
    ∀ (steps : List Step) (gid pid : Nat),
      pid ≤ (runSteps bid p steps gid pid).2 ∧
      (∀ q ∈ (runSteps bid p steps gid pid).1,
        pid < q.pid ∧ q.pid ≤ (runSteps bid p steps gid pid).2) ∧
      List.Pairwise (fun a b => a.pid < b.pid) (runSteps bid p steps gid pid).1 := by
  intro steps
  induction steps with
  | nil =>
    intro gid pid
    refine ⟨Nat.le_refl _, ?_, ?_⟩ <;> simp [runSteps]
  | cons s rest ih =>
    intro gid pid
    rw [runSteps_cons]
    obtain ⟨h1, h2, h3⟩ := ih (if gid = 0 then pid + 1 else gid) (pid + 1)
    refine ⟨Nat.le_trans (Nat.le_succ pid) h1, ?_, ?_⟩
    · intro q hq
      rcases List.mem_cons.1 hq with rfl | hq
      · exact ⟨Nat.lt_succ_self pid, h1⟩
      · obtain ⟨hq1, hq2⟩ := h2 q hq
        exact ⟨Nat.lt_trans (Nat.lt_succ_self pid) hq1, hq2⟩
    · exact List.pairwise_cons.2 ⟨fun q hq => (h2 q hq).1, h3⟩

theorem runSteps_state (bid : Int) (p : Proc) :
    ∀ (steps : List Step) (gid pid : Nat), ∀ q ∈ (runSteps bid p steps gid pid).1,
      q.ppid = p.pid ∧ q.state = (if p.state = .skipped then .skipped else .pending) := by
  intro steps
  induction steps with
  | nil => intro gid pid q hq; simp [runSteps] at hq
  | cons s rest ih =>
    intro gid pid q hq
    rw [runSteps_cons] at hq
    rcases List.mem_cons.1 hq with rfl | hq
    · exact ⟨rfl, rfl⟩
    · exact ih _ _ q hq

theorem runStages_cons (bid : Int) (p : Proc) (stage : Stage) (rest : List Stage)
    (pid : Nat) :
    runStages bid p (stage :: rest) pid =
      ((runSteps bid p stage.steps 0 pid).1 ++
         (runStages bid p rest (runSteps bid p stage.steps 0 pid).2).1,
       (runStages bid p rest (runSteps bid p stage.steps 0 pid).2).2) := by
  cases h1 : runSteps bid p stage.steps 0 pid with
  | mk procs1 pid1 =>
    cases h2 : runStages bid p rest pid1 with
    | mk procs2 pid2 => simp [runStages, h1, h2]

theorem runStages_spec (bid : Int) (p : Proc) :
    ∀ (stages : List Stage) (pid : Nat),
      pid ≤ (runStages bid p stages pid).2 ∧
      (∀ q ∈ (runStages bid p stages pid).1,
        pid < q.pid ∧ q.pid ≤ (runStages bid p stages pid).2) ∧
      List.Pairwise (fun a b => a.pid < b.pid) (runStages bid p stages pid).1 := by
  intro stages
  induction stages with
  | nil =>
    intro pid
    refine ⟨Nat.le_refl _, ?_, ?_⟩ <;> simp [runStages]
  | cons stage rest ih =>
    intro pid
    rw [runStages_cons]
    obtain ⟨hs1, hs2, hs3⟩ := runSteps_spec bid p stage.steps 0 pid
    obtain ⟨hi1, hi2, hi3⟩ := ih (runSteps bid p stage.steps 0 pid).2
    refine ⟨Nat.le_trans hs1 hi1, ?_, ?_⟩
    · intro q hq
      rcases List.mem_append.1 hq with hq | hq
      · obtain ⟨ha, hb⟩ := hs2 q hq
        exact ⟨ha, Nat.le_trans hb hi1⟩
      · obtain ⟨ha, hb⟩ := hi2 q hq
        exact ⟨Nat.lt_of_le_of_lt hs1 ha, hb⟩
    · refine List.pairwise_append.2 ⟨hs3, hi3, ?_⟩
      intro q1 hq1 q2 hq2
      exact Nat.lt_of_le_of_lt (hs2 q1 hq1).2 (hi2 q2 hq2).1

theorem runStages_state (bid : Int) (p : Proc) :
    ∀ (stages : List Stage) (pid : Nat), ∀ q ∈ (runStages bid p stages pid).1,
      q.ppid = p.pid ∧ q.state = (if p.state = .skipped then .skipped else .pending) := by
  intro stages
  induction stages with
  | nil => intro pid q hq; simp [runStages] at hq
  | cons stage rest ih =>
    intro pid q hq
    rw [runStages_cons] at hq
    rcases List.mem_append.1 hq with hq | hq
    · exact runSteps_state bid p stage.steps 0 pid q hq
    · exact ih _ q hq

theorem runItems_cons (bid : Int) (item : buildItem) (rest : List buildItem)
    (pid : Nat) :
    runItems bid (item :: rest) pid =
      ((runStages bid item.proc item.config.stages pid).1 ++
         (runItems bid rest (runStages bid item.proc item.config.stages pid).2).1,
       (runItems bid rest (runStages bid item.proc item.config.stages pid).2).2) := by
  cases h1 : runStages bid item.proc item.config.stages pid with
  | mk procs1 pid1 =>
    cases h2 : runItems bid rest pid1 with
    | mk procs2 pid2 => simp [runItems, h1, h2]

theorem runItems_spec (bid : Int) :
    ∀ (items : List buildItem) (pid : Nat),
      pid ≤ (runItems bid items pid).2 ∧
      (∀ q ∈ (runItems bid items pid).1,
        pid < q.pid ∧ q.pid ≤ (runItems bid items pid).2) ∧
      List.Pairwise (fun a b => a.pid < b.pid) (runItems bid items pid).1 := by
  intro items
  induction items with
  | nil =>
    intro pid
    refine ⟨Nat.le_refl _, ?_, ?_⟩ <;> simp [runItems]
  | cons item rest ih =>
    intro pid
    rw [runItems_cons]
    obtain ⟨hs1, hs2, hs3⟩ := runStages_spec bid item.proc item.config.stages pid
    obtain ⟨hi1, hi2, hi3⟩ := ih (runStages bid item.proc item.config.stages pid).2
    refine ⟨Nat.le_trans hs1 hi1, ?_, ?_⟩
    · intro q hq
      rcases List.mem_append.1 hq with hq | hq
      · obtain ⟨ha, hb⟩ := hs2 q hq
        exact ⟨ha, Nat.le_trans hb hi1⟩
      · obtain ⟨ha, hb⟩ := hi2 q hq
        exact ⟨Nat.lt_of_le_of_lt hs1 ha, hb⟩
    · refine List.pairwise_append.2 ⟨hs3, hi3, ?_⟩
      intro q1 hq1 q2 hq2
      exact Nat.lt_of_le_of_lt (hs2 q1 hq1).2 (hi2 q2 hq2).1

theorem runItems_prov (bid : Int) :
    ∀ (items : List buildItem) (pid : Nat), ∀ q ∈ (runItems bid items pid).1,
      ∃ item ∈ items, q.ppid = item.proc.pid ∧
        q.state = (if item.proc.state = .skipped then .skipped else .pending) := by
  intro items
  induction items with
  | nil => intro pid q hq; simp [runItems] at hq
  | cons item rest ih =>
    intro pid q hq
    rw [runItems_cons] at hq
    rcases List.mem_append.1 hq with hq | hq
    · obtain ⟨ha, hb⟩ := runStages_state bid item.proc item.config.stages pid q hq
      exact ⟨item, List.mem_cons_self item rest, ha, hb⟩
    · obtain ⟨it, hit, ha, hb⟩ := ih _ q hq
      exact ⟨it, List.mem_cons_of_mem item hit, ha, hb⟩

theorem processAxis_ok_chain (o : Oracles) (b : procBuilder) (y : FileMeta)
    (axis : Axis) (pid : Nat) (res : Option buildItem)
    (h : processAxis o b y axis pid = .ok res) :
    ∃ parsed, parsedOf o b y axis pid = .ok parsed ∧
      o.lint b.repo.isTrusted parsed = none := by
  simp only [processAxis] at h
  split at h
  · cases h
  · rename_i substituted hsub
    split at h
    · cases h
    · rename_i parsed hparse
      split at h
      · cases h
      · rename_i hlint
        refine ⟨parsed, ?_, hlint⟩
        simp only [parsedOf]
        rw [hsub]
        exact hparse


theorem mkItem_some (parsed : YamlConfig) (proc : Proc) (ir : BackendConfig)
    (arch : GoStr) (it : buildItem) (h : mkItem parsed proc ir arch = some it) :
    it.proc = proc ∧ it.labels.isSome ∧ it.dependsOn = parsed.dependsOn ∧
    it.runsOn = parsed.runsOn ∧ it.config = ir ∧ it.platform = arch := by
  simp only [mkItem] at h
  by_cases hst : ir.stages = []
  · simp [hst] at h
  · rw [if_neg hst] at h
    by_cases hlab : parsed.labels = none
    · simp only [hlab, reduceIte, Option.some.injEq] at h
      subst h
      exact ⟨rfl, by simp, rfl, rfl, rfl, rfl⟩
    · simp only [hlab, reduceIte, Option.some.injEq] at h
      subst h
      exact ⟨rfl, by simpa [Option.isSome_iff_ne_none] using hlab, rfl, rfl, rfl, rfl⟩

theorem processAxis_ok_some (o : Oracles) (b : procBuilder) (y : FileMeta)
    (axis : Axis) (pid : Nat) (it : buildItem)
    (h : processAxis o b y axis pid = .ok (some it)) :
    it.proc.pid = pid ∧ it.proc.pgid = pid ∧ it.proc.buildID = b.curr.id ∧
    it.proc.name = sanitizePath y.name b.repo.config ∧
    it.proc.environ = axis ∧
    it.labels.isSome ∧
    (it.proc.state = .pending ∨ it.proc.state = .skipped) ∧
    ∃ parsed, parsedOf o b y axis pid = .ok parsed ∧
      o.lint b.repo.isTrusted parsed = none ∧
      (it.proc.state = .skipped ↔ parsed.branchesMatch b.curr.branch = false) := by
  simp only [processAxis] at h
  split at h
  · cases h
  · rename_i substituted hsub
    split at h
    · cases h
    · rename_i parsed hparse
      split at h
      · cases h
      · rename_i hlint
        have hparsedOf : parsedOf o b y axis pid = .ok parsed := by
          simp only [parsedOf]
          rw [hsub]
          exact hparse
        injection h with h2
        obtain ⟨hproc, hlabs, _, _, _, _⟩ := mkItem_some _ _ _ _ _ h2
        by_cases hbr : parsed.branchesMatch b.curr.branch = true
        · rw [if_pos hbr] at hproc
          rw [hproc]
          refine ⟨rfl, rfl, rfl, rfl, rfl, hlabs, Or.inl rfl,
            parsed, hparsedOf, hlint, ?_⟩
          constructor
          · intro hcontra
            exact Status.noConfusion hcontra
          · intro hfalse
            rw [hbr] at hfalse
            exact Bool.noConfusion hfalse
        · rw [if_neg hbr] at hproc
          rw [hproc]
          refine ⟨rfl, rfl, rfl, rfl, rfl, hlabs, Or.inr rfl,
            parsed, hparsedOf, hlint, ?_⟩
          refine ⟨fun _ => ?_, fun _ => rfl⟩
          cases hb : parsed.branchesMatch b.curr.branch
          · rfl
          · exact absurd hb hbr

theorem processAxes_ok (o : Oracles) (b : procBuilder) (y : FileMeta) :
    ∀ (axes : List Axis) (pid : Nat) (items : List buildItem) (pid2 : Nat),
      processAxes o b y axes pid = .ok (items, pid2) →
      pid ≤ pid2 ∧
      (∀ it ∈ items, pid ≤ it.proc.pid ∧ it.proc.pid < pid2 ∧
        ∃ axis ∈ axes, processAxis o b y axis it.proc.pid = .ok (some it)) ∧
      items.length ≤ axes.length ∧
      List.Pairwise (fun i j => i.proc.pid < j.proc.pid) items := by
  intro axes
  induction axes with
  | nil =>
    intro pid items pid2 h
    simp only [processAxes, Except.ok.injEq, Prod.mk.injEq] at h
    obtain ⟨rfl, rfl⟩ := h
    exact ⟨Nat.le_refl _, by simp, by simp, by simp⟩
  | cons axis rest ih =>
    intro pid items pid2 h
    simp only [processAxes] at h
    split at h
    · cases h
    · obtain ⟨h1, h2, h3, h4⟩ := ih pid items pid2 h
      refine ⟨h1, ?_, Nat.le_trans h3 (Nat.le_succ _), h4⟩
      intro it hit
      obtain ⟨ha, hb, axis2, haxis2, hax2⟩ := h2 it hit
      exact ⟨ha, hb, axis2, List.mem_cons_of_mem _ haxis2, hax2⟩
    · rename_i item hax
      split at h
      · cases h
      · rename_i items1 pid1 hrec
        simp only [Except.ok.injEq, Prod.mk.injEq] at h
        obtain ⟨rfl, rfl⟩ := h
        obtain ⟨h1, h2, h3, h4⟩ := ih (pid + 1) items1 pid1 hrec
        have hitempid : item.proc.pid = pid :=
          (processAxis_ok_some o b y axis pid item hax).1
        refine ⟨Nat.le_trans (Nat.le_succ pid) h1, ?_, ?_, ?_⟩
        · intro it hit
          rcases List.mem_cons.1 hit with rfl | hit
          · refine ⟨Nat.le_of_eq hitempid.symm, ?_, axis, List.mem_cons_self _ _, ?_⟩
            · rw [hitempid]
              exact Nat.lt_of_lt_of_le (Nat.lt_succ_self pid) h1
            · rw [hitempid]
              exact hax
          · obtain ⟨ha, hb, axis2, haxis2, hax2⟩ := h2 it hit
            exact ⟨Nat.le_trans (Nat.le_succ pid) ha, hb, axis2,
              List.mem_cons_of_mem _ haxis2, hax2⟩
        · simpa using Nat.succ_le_succ h3
        · refine List.pairwise_cons.2 ⟨?_, h4⟩
          intro it hit
          rw [hitempid]
          exact Nat.lt_of_lt_of_le (Nat.lt_succ_self pid) (h2 it hit).1

theorem processYamls_ok (o : Oracles) (b : procBuilder) :
    ∀ (ys : List FileMeta) (pid : Nat) (items : List buildItem) (pid2 : Nat),
      processYamls o b ys pid = .ok (items, pid2) →
      pid ≤ pid2 ∧
      (∀ it ∈ items, pid ≤ it.proc.pid ∧ it.proc.pid < pid2 ∧
        ∃ y ∈ ys, ∃ axes, o.parseMatrix y.data = .ok axes ∧
          ∃ axis ∈ (if axes = [] then [[]] else axes),
            processAxis o b y axis it.proc.pid = .ok (some it)) ∧
      List.Pairwise (fun i j => i.proc.pid < j.proc.pid) items := by
  intro ys
  induction ys with
  | nil =>
    intro pid items pid2 h
    simp only [processYamls, Except.ok.injEq, Prod.mk.injEq] at h
    obtain ⟨rfl, rfl⟩ := h
    exact ⟨Nat.le_refl _, by simp, by simp⟩
  | cons y rest ih =>
    intro pid items pid2 h
    simp only [processYamls] at h
    split at h
    · cases h
    · rename_i axes0 hmat
      split at h
      · cases h
      · rename_i items1 pid1 hax
        split at h
        · cases h
        · rename_i items2 pid2a hrec
          simp only [Except.ok.injEq, Prod.mk.injEq] at h
          obtain ⟨rfl, rfl⟩ := h
          obtain ⟨ha1, ha2, _, ha4⟩ := processAxes_ok o b y _ pid items1 pid1 hax
          obtain ⟨hr1, hr2, hr3⟩ := ih pid1 items2 pid2a hrec
          refine ⟨Nat.le_trans ha1 hr1, ?_, ?_⟩
          · intro it hit
            rcases List.mem_append.1 hit with hit | hit
            · obtain ⟨hb1, hb2, axis, haxis, haxok⟩ := ha2 it hit
              exact ⟨hb1, Nat.lt_of_lt_of_le hb2 hr1, y, List.mem_cons_self _ _,
                axes0, hmat, axis, haxis, haxok⟩
            · obtain ⟨hb1, hb2, y2, hy2, axes2, hmat2, axis, haxis, haxok⟩ :=
                hr2 it hit
              exact ⟨Nat.le_trans ha1 hb1, hb2, y2, List.mem_cons_of_mem _ hy2,
                axes2, hmat2, axis, haxis, haxok⟩
          · refine List.pairwise_append.2 ⟨ha4, hr3, ?_⟩
            intro i1 hi1 i2 hi2
            exact Nat.lt_of_lt_of_le (ha2 i1 hi1).2.1 (hr2 i2 hi2).1

theorem processAxes_all_ok (o : Oracles) (b : procBuilder) (y : FileMeta) :
    ∀ (axes : List Axis) (pid : Nat) (r : List buildItem × Nat),
      processAxes o b y axes pid = .ok r →
      ∀ axis ∈ axes, ∃ pidx resx, processAxis o b y axis pidx = .ok resx := by
  intro axes
  induction axes with
  | nil => intro pid r _ axis haxis; simp at haxis
  | cons axis0 rest ih =>
    intro pid r h axis haxis
    simp only [processAxes] at h
    split at h
    · cases h
    · rename_i hax
      rcases List.mem_cons.1 haxis with rfl | haxis
      · exact ⟨pid, none, hax⟩
      · exact ih pid r h axis haxis
    · rename_i item hax
      split at h
      · cases h
      · rename_i items1 pid1 hrec
        rcases List.mem_cons.1 haxis with rfl | haxis
        · exact ⟨pid, some item, hax⟩
        · exact ih (pid + 1) (items1, pid1) hrec axis haxis

theorem processYamls_all_ok (o : Oracles) (b : procBuilder) :
    ∀ (ys : List FileMeta) (pid : Nat) (r : List buildItem × Nat),
      processYamls o b ys pid = .ok r →
      ∀ y ∈ ys, ∃ axes, o.parseMatrix y.data = .ok axes ∧
        ∃ pidx resx,
          processAxes o b y (if axes = [] then [[]] else axes) pidx = .ok resx := by
  intro ys
  induction ys with
  | nil => intro pid r _ y hy; simp at hy
  | cons y0 rest ih =>
    intro pid r h y hy
    simp only [processYamls] at h
    split at h
    · cases h
    · rename_i axes0 hmat
      split at h
      · cases h
      · rename_i items1 pid1 hax
        split at h
        · cases h
        · rename_i items2 pid2a hrec
          rcases List.mem_cons.1 hy with rfl | hy
          · exact ⟨axes0, hmat, pid, (items1, pid1), hax⟩
          · exact ih pid1 (items2, pid2a) hrec y hy

theorem Build_ok (o : Oracles) (b : procBuilder) (items : List buildItem)
    (h : procBuilder.Build o b = .ok items) :
    ∃ items0 pid2, processYamls o b (sortByName b.yamls) 1 = .ok (items0, pid2) ∧
      items = filterItemsWithMissingDependencies items0 := by
  simp only [procBuilder.Build] at h
  split at h
  · cases h
  · rename_i items0 pid2 hp
    simp only [Except.ok.injEq] at h
    exact ⟨items0, pid2, hp, h.symm⟩

theorem foldl_maxPid_ge :
    ∀ (items : List buildItem) (acc : Nat),
      acc ≤ items.foldl (fun a it => if a < it.proc.pid then it.proc.pid else a) acc ∧
      ∀ it ∈ items,
        it.proc.pid ≤
          items.foldl (fun a it => if a < it.proc.pid then it.proc.pid else a) acc := by
  intro items
  induction items with
  | nil => intro acc; exact ⟨Nat.le_refl _, by simp⟩
  | cons item rest ih =>
    intro acc
    obtain ⟨ih1, ih2⟩ := ih (if acc < item.proc.pid then item.proc.pid else acc)
    have hstep : acc ≤ (if acc < item.proc.pid then item.proc.pid else acc) := by
      by_cases hc : acc < item.proc.pid
      · simp [hc]
        omega
      · simp [hc]
    have hitem : item.proc.pid ≤ (if acc < item.proc.pid then item.proc.pid else acc) := by
      by_cases hc : acc < item.proc.pid
      · simp [hc]
      · simp [hc]
        omega
    refine ⟨Nat.le_trans hstep ih1, ?_⟩
    intro it hit
    rcases List.mem_cons.1 hit with rfl | hit
    · exact Nat.le_trans hitem ih1
    · exact ih2 it hit

theorem setBuildStepsOnBuild_procs (bl : BuildRec) (items : List buildItem) :
    (setBuildStepsOnBuild bl items).procs =
      (bl.procs ++ items.map (fun item => item.proc)) ++
        (runItems bl.id items
          (items.foldl
            (fun a it => if a < it.proc.pid then it.proc.pid else a) 0)).1 := by
  cases h : runItems bl.id items
      (items.foldl (fun a it => if a < it.proc.pid then it.proc.pid else a) 0) with
  | mk procs pidx => simp [setBuildStepsOnBuild, h]

/-- C1: for every successful plan, the PIDs of the final process list —
all top-level item descriptors first, then all step descriptors emitted by
setBuildStepsOnBuild — are strictly increasing in emission order, and hence
pairwise distinct: no PID is assigned twice within one build. -/
theorem C1_final_pids_strictly_increasing (o : Oracles) (b : procBuilder)
    (bl : BuildRec) (items : List buildItem)
    (hB : procBuilder.Build o b = .ok items) (hbl : bl.procs = []) :
    List.Pairwise (fun p q : Proc => p.pid < q.pid)
      ((setBuildStepsOnBuild bl items).procs) ∧
    List.Pairwise (fun p q : Proc => p.pid ≠ q.pid)
      ((setBuildStepsOnBuild bl items).procs) := by
  suffices hlt : List.Pairwise (fun p q : Proc => p.pid < q.pid)
      ((setBuildStepsOnBuild bl items).procs) by
    exact ⟨hlt, hlt.imp (fun h => Nat.ne_of_lt h)⟩
  rw [setBuildStepsOnBuild_procs, hbl]
  simp only [List.nil_append]
  obtain ⟨items0, pid2, hp, hfil⟩ := Build_ok o b items hB
  obtain ⟨_, hbounds, hpair⟩ := processYamls_ok o b _ 1 items0 pid2 hp
  have hsub : items.Sublist items0 := by
    rw [hfil]
    exact filterItems_sublist items0
  have hpairItems : List.Pairwise (fun i j : buildItem => i.proc.pid < j.proc.pid)
      items := List.Pairwise.sublist hsub hpair
  have hmax := foldl_maxPid_ge items 0
  obtain ⟨hrs1, hrs2, hrs3⟩ := runItems_spec bl.id items
    (items.foldl (fun a it => if a < it.proc.pid then it.proc.pid else a) 0)
  refine List.pairwise_append.2 ⟨List.pairwise_map.2 hpairItems, hrs3, ?_⟩
  intro p hp1 q hq1
  obtain ⟨it, hit, rfl⟩ := List.mem_map.1 hp1
  exact Nat.lt_of_le_of_lt (hmax.2 it hit) (hrs2 q hq1).1

/-- Concrete oracle for the C1 witness: one document with a two-way matrix,
every parse succeeding, each item compiling to one stage of two steps. -/
def oracleC1 : Oracles :=
  { parseMatrix := fun _ => .ok [[(gs "X", gs "1")], [(gs "X", gs "2")]],
    parseYaml := fun _ => .ok {},
    lint := fun _ _ => none,
    envsubstEval := fun y _ => .ok y,
    metadataFromStruct := fun _ _ _ _ _ => {},
    setPlatform := fun md _ => md,
    compile := fun _ => { stages := [{ steps := [{}, {}] }] } }

/-- Concrete builder for the C1 witness. -/
def builderC1 : procBuilder := { yamls := [{ name := gs "a.yml", data := gs "D" }] }

/-- The items the C1 witness plan produces. -/
def itemsC1 : List buildItem :=
  (procBuilder.Build oracleC1 builderC1).toOption.getD []

/-- C1 witness: the pid theorem applied to a concrete successful plan with
two matrix items and four step descriptors. -/
theorem C1_witness :
    List.Pairwise (fun p q : Proc => p.pid < q.pid)
      ((setBuildStepsOnBuild {} itemsC1).procs) ∧
    List.Pairwise (fun p q : Proc => p.pid ≠ q.pid)
      ((setBuildStepsOnBuild {} itemsC1).procs) :=
  C1_final_pids_strictly_increasing oracleC1 builderC1 {} itemsC1 (by rfl) rfl

/-- C10: for every successful Build, every returned item carries a non-nil
labels mapping: a definition with no declared labels yields an empty (but
present) mapping. -/
theorem C10_labels_never_nil (o : Oracles) (b : procBuilder)
    (items : List buildItem) (hB : procBuilder.Build o b = .ok items) :
    ∀ it ∈ items, it.labels.isSome := by
  intro it hit
  obtain ⟨items0, pid2, hp, hfil⟩ := Build_ok o b items hB
  have hsub : items.Sublist items0 := by
    rw [hfil]
    exact filterItems_sublist items0
  have hit0 : it ∈ items0 := hsub.subset hit
  obtain ⟨_, hbounds, _⟩ := processYamls_ok o b _ 1 items0 pid2 hp
  obtain ⟨_, _, y, hy, axes, hmat, axis, haxis, hax⟩ := hbounds it hit0
  exact (processAxis_ok_some o b y axis it.proc.pid it hax).2.2.2.2.2.1

/-- Concrete oracle for the C10 witness: a definition declaring no labels. -/
def oracleC10 : Oracles :=
  { parseMatrix := fun _ => .ok [],
    parseYaml := fun _ => .ok {},
    lint := fun _ _ => none,
    envsubstEval := fun y _ => .ok y,
    metadataFromStruct := fun _ _ _ _ _ => {},
    setPlatform := fun md _ => md,
    compile := fun _ => { stages := [{ steps := [{}] }] } }

/-- Concrete builder for the C10 witness. -/
def builderC10 : procBuilder := { yamls := [{ name := gs "a.yml", data := gs "D" }] }

/-- The items the C10 witness plan produces. -/
def itemsC10 : List buildItem :=
  (procBuilder.Build oracleC10 builderC10).toOption.getD []

/-- C10 witness: the labels theorem applied to a concrete plan whose parsed
definition declared no labels; the surviving item still carries an empty
labels map. -/
theorem C10_witness : ((itemsC10.head?).getD {}).labels.isSome :=
  C10_labels_never_nil oracleC10 builderC10 itemsC10 (by rfl)
    ((itemsC10.head?).getD {}) (by decide)

/-- C5: no partial plan.  In contrapositive form: whenever Build succeeds,
every sorted document passed matrix parsing and every axis of every
document passed variable substitution, pipeline parsing and linting; hence
an input on which any document fails any of these stages cannot produce an
ok result, and Build's Go return (nil, err) is the error case of the
Except, which carries no items at all.  Compilation itself returns no error
in this code, so a compile failure cannot arise. -/
theorem C5_no_partial_plan (o : Oracles) (b : procBuilder)
    (items : List buildItem) (hB : procBuilder.Build o b = .ok items) :
    ∀ y ∈ sortByName b.yamls, ∃ axes, o.parseMatrix y.data = .ok axes ∧
      ∀ axis ∈ (if axes = [] then [[]] else axes),
        ∃ pidx parsed, parsedOf o b y axis pidx = .ok parsed ∧
          o.lint b.repo.isTrusted parsed = none := by
  intro y hy
  simp only [procBuilder.Build] at hB
  split at hB
  · cases hB
  · rename_i items0 pid2 hp
    obtain ⟨axes, hmat, pidx, resx, haxes⟩ := processYamls_all_ok o b _ 1 _ hp y hy
    refine ⟨axes, hmat, ?_⟩
    intro axis haxis
    obtain ⟨pidy, resy, hax⟩ := processAxes_all_ok o b y _ pidx resx haxes axis haxis
    obtain ⟨parsed, hpo, hlint⟩ := processAxis_ok_chain o b y axis pidy resy hax
    exact ⟨pidy, parsed, hpo, hlint⟩

/-- Concrete oracle for the C5 witness. -/
def oracleC5 : Oracles :=
  { parseMatrix := fun _ => .ok [],
    parseYaml := fun _ => .ok {},
    lint := fun _ _ => none,
    envsubstEval := fun y _ => .ok y,
    metadataFromStruct := fun _ _ _ _ _ => {},
    setPlatform := fun md _ => md,
    compile := fun _ => { stages := [{ steps := [{}] }] } }

/-- Concrete builder for the C5 witness. -/
def builderC5 : procBuilder := { yamls := [{ name := gs "a.yml", data := gs "D" }] }

/-- The items the C5 witness plan produces. -/
def itemsC5 : List buildItem :=
  (procBuilder.Build oracleC5 builderC5).toOption.getD []

/-- C5 witness: the no-partial-plan theorem applied to a concrete
successful plan, at its single document. -/
theorem C5_witness :
    ∃ axes, oracleC5.parseMatrix (gs "D") = .ok axes ∧
      ∀ axis ∈ (if axes = [] then [[]] else axes),
        ∃ pidx parsed, parsedOf oracleC5 builderC5
            { name := gs "a.yml", data := gs "D" } axis pidx = .ok parsed ∧
          oracleC5.lint builderC5.repo.isTrusted parsed = none :=
  C5_no_partial_plan oracleC5 builderC5 itemsC5 (by rfl)
    { name := gs "a.yml", data := gs "D" } (by decide)

theorem pairwise_of_length_le_one {α : Type} {R : α → α → Prop} :
    ∀ l : List α, l.length ≤ 1 → List.Pairwise R l := by
  intro l h
  match l with
  | [] => exact List.Pairwise.nil
  | [a] => exact List.pairwise_singleton R a
  | a :: c :: rest => simp at h

theorem processYamls_names_pairwise (o : Oracles) (b : procBuilder) :
    ∀ (ys : List FileMeta) (pid : Nat) (items : List buildItem) (pid2 : Nat),
      processYamls o b ys pid = .ok (items, pid2) →
      (∀ y ∈ ys, ∀ axes, o.parseMatrix y.data = .ok axes → axes.length ≤ 1) →
      List.Pairwise
        (fun y z : FileMeta =>
          sanitizePath y.name b.repo.config ≠ sanitizePath z.name b.repo.config) ys →
      List.Pairwise (fun i j : buildItem => i.proc.name ≠ j.proc.name) items := by
  intro ys
  induction ys with
  | nil =>
    intro pid items pid2 h _ _
    simp only [processYamls, Except.ok.injEq, Prod.mk.injEq] at h
    obtain ⟨rfl, rfl⟩ := h
    exact List.Pairwise.nil
  | cons y rest ih =>
    intro pid items pid2 h hone hpairYs
    simp only [processYamls] at h
    split at h
    · cases h
    · rename_i axes0 hmat
      split at h
      · cases h
      · rename_i items1 pid1 hax
        split at h
        · cases h
        · rename_i items2 pid2a hrec
          simp only [Except.ok.injEq, Prod.mk.injEq] at h
          obtain ⟨rfl, rfl⟩ := h
          obtain ⟨_, ha2, ha3, _⟩ := processAxes_ok o b y _ pid items1 pid1 hax
          obtain ⟨_, hr2, _⟩ := processYamls_ok o b rest pid1 items2 pid2a hrec
          have hlen1 : items1.length ≤ 1 := by
            refine Nat.le_trans ha3 ?_
            by_cases hz : axes0 = []
            · simp [hz]
            · simp only [hz, if_false, reduceIte]
              exact hone y (List.mem_cons_self _ _) axes0 hmat
          have hname1 : ∀ it ∈ items1,
              it.proc.name = sanitizePath y.name b.repo.config := by
            intro it hit
            obtain ⟨_, _, axis, _, haxok⟩ := ha2 it hit
            exact (processAxis_ok_some o b y axis it.proc.pid it haxok).2.2.2.1
          have hname2 : ∀ it ∈ items2, ∃ z ∈ rest,
              it.proc.name = sanitizePath z.name b.repo.config := by
            intro it hit
            obtain ⟨_, _, z, hz, axes2, _, axis, _, haxok⟩ := hr2 it hit
            exact ⟨z, hz, (processAxis_ok_some o b z axis it.proc.pid it haxok).2.2.2.1⟩
          refine List.pairwise_append.2
            ⟨pairwise_of_length_le_one items1 hlen1, ?_, ?_⟩
          · refine ih pid1 items2 pid2a hrec ?_ (List.pairwise_cons.1 hpairYs).2
            intro z hz axes2 hm2
            exact hone z (List.mem_cons_of_mem _ hz) axes2 hm2
          · intro i1 hi1 i2 hi2
            obtain ⟨z, hz, hzn⟩ := hname2 i2 hi2
            rw [hname1 i1 hi1, hzn]
            exact (List.pairwise_cons.1 hpairYs).1 z hz

/-- Concrete oracle for the C3 counterexample: one document expanding into
a two-combination matrix, everything succeeding. -/
def oracleC3 : Oracles :=
  { parseMatrix := fun _ => .ok [[(gs "X", gs "1")], [(gs "X", gs "2")]],
    parseYaml := fun _ => .ok {},
    lint := fun _ _ => none,
    envsubstEval := fun y _ => .ok y,
    metadataFromStruct := fun _ _ _ _ _ => {},
    setPlatform := fun md _ => md,
    compile := fun _ => { stages := [{ steps := [{}] }] } }

/-- Concrete builder for the C3 counterexample. -/
def builderC3 : procBuilder := { yamls := [{ name := gs "a.yml", data := gs "D" }] }

/-- C3 (corrected, counterexample): a single document with a two-way matrix
produces two surviving items whose sanitized names are both "a" — the names
are not pairwise unique, though the Environ values are distinct. -/
theorem C3_counterexample :
    (procBuilder.Build oracleC3 builderC3).map
        (fun items => items.map (fun it => it.proc.name)) =
      .ok [gs "a", gs "a"] ∧
    (procBuilder.Build oracleC3 builderC3).map
        (fun items => items.map (fun it => it.proc.environ)) =
      .ok [[(gs "X", gs "1")], [(gs "X", gs "2")]] := by
  refine ⟨by rfl, by rfl⟩

/-- C3 (amended): every surviving item's name is the sanitized name of its
source document, so all items produced from one document share one name;
the names are pairwise unique provided every document expands to at most
one axis combination and the sanitized document names are pairwise
distinct. -/
theorem C3_unique_names_without_matrix (o : Oracles) (b : procBuilder)
    (items : List buildItem) (hB : procBuilder.Build o b = .ok items)
    (hone : ∀ y ∈ sortByName b.yamls, ∀ axes, o.parseMatrix y.data = .ok axes →
      axes.length ≤ 1)
    (hnames : List.Pairwise (fun y z : FileMeta =>
      sanitizePath y.name b.repo.config ≠ sanitizePath z.name b.repo.config)
      (sortByName b.yamls)) :
    List.Pairwise (fun i j : buildItem => i.proc.name ≠ j.proc.name) items ∧
    ∀ it ∈ items, ∃ y ∈ sortByName b.yamls,
      it.proc.name = sanitizePath y.name b.repo.config := by
  obtain ⟨items0, pid2, hp, hfil⟩ := Build_ok o b items hB
  subst hfil
  have hsub := filterItems_sublist items0
  constructor
  · exact List.Pairwise.sublist hsub
      (processYamls_names_pairwise o b _ 1 items0 pid2 hp hone hnames)
  · intro it hit
    have hit0 : it ∈ items0 := hsub.subset hit
    obtain ⟨_, hbounds, _⟩ := processYamls_ok o b _ 1 items0 pid2 hp
    obtain ⟨_, _, y, hy, axes, hmat, axis, haxis, hax⟩ := hbounds it hit0
    exact ⟨y, hy, (processAxis_ok_some o b y axis it.proc.pid it hax).2.2.2.1⟩

/-- Concrete oracle for the C3 witness: two documents with no matrix. -/
def oracleC3w : Oracles :=
  { parseMatrix := fun _ => .ok [],
    parseYaml := fun _ => .ok {},
    lint := fun _ _ => none,
    envsubstEval := fun y _ => .ok y,
    metadataFromStruct := fun _ _ _ _ _ => {},
    setPlatform := fun md _ => md,
    compile := fun _ => { stages := [{ steps := [{}] }] } }

/-- Concrete builder for the C3 witness. -/
def builderC3w : procBuilder :=
  { yamls := [{ name := gs "a.yml", data := gs "D" },
              { name := gs "b.yml", data := gs "E" }] }

/-- The items the C3 witness plan produces. -/
def itemsC3w : List buildItem :=
  (procBuilder.Build oracleC3w builderC3w).toOption.getD []

/-- C3 witness: the amended uniqueness theorem applied to a concrete plan
of two matrix-free documents with distinct sanitized names. -/
theorem C3_witness :
    List.Pairwise (fun i j : buildItem => i.proc.name ≠ j.proc.name) itemsC3w ∧
    ∀ it ∈ itemsC3w, ∃ y ∈ sortByName builderC3w.yamls,
      it.proc.name = sanitizePath y.name builderC3w.repo.config :=
  C3_unique_names_without_matrix oracleC3w builderC3w itemsC3w (by rfl)
    (by
      intro y hy axes hm
      injection hm with h2
      subst h2
      simp)
    (by decide)

theorem pid_inj_of_pairwise (l : List buildItem)
    (h : List.Pairwise (fun i j : buildItem => i.proc.pid < j.proc.pid) l) :
    ∀ a ∈ l, ∀ c ∈ l, a.proc.pid = c.proc.pid → a = c := by
  induction l with
  | nil => intro a ha; simp at ha
  | cons x rest ih =>
    intro a ha c hc heq
    obtain ⟨hx, hrest⟩ := List.pairwise_cons.1 h
    rcases List.mem_cons.1 ha with ha1 | ha1 <;>
      rcases List.mem_cons.1 hc with hc1 | hc1
    · exact ha1.trans hc1.symm
    · rw [ha1] at heq
      exact absurd heq (Nat.ne_of_lt (hx c hc1))
    · rw [hc1] at heq
      exact absurd heq.symm (Nat.ne_of_lt (hx a ha1))
    · exact ih hrest a ha1 c hc1 heq

/-- C4: in the final process list of a successful plan, every step
descriptor's state is Pending or Skipped, and it is Skipped exactly when
the owning item (the one whose pid is the step's ppid) has a Skipped
descriptor; an item's descriptor in turn is Skipped exactly when the branch
filter of its parsed definition did not match the current build's branch,
and such items are still compiled and kept in the plan (they occur in the
item list with their steps emitted). -/
theorem C4_skipped_iff_branch_mismatch (o : Oracles) (b : procBuilder)
    (bl : BuildRec) (items : List buildItem)
    (hB : procBuilder.Build o b = .ok items) (hbl : bl.procs = []) :
    (∀ q ∈ ((setBuildStepsOnBuild bl items).procs).drop items.length,
      (q.state = .pending ∨ q.state = .skipped) ∧
      (q.state = .skipped ↔
        ∃ it ∈ items, it.proc.pid = q.ppid ∧ it.proc.state = .skipped)) ∧
    (∀ it ∈ items,
      (it.proc.state = .pending ∨ it.proc.state = .skipped) ∧
      ∃ y ∈ sortByName b.yamls, ∃ axes, o.parseMatrix y.data = .ok axes ∧
        ∃ axis ∈ (if axes = [] then [[]] else axes), ∃ parsed,
          parsedOf o b y axis it.proc.pid = .ok parsed ∧
          (it.proc.state = .skipped ↔
            parsed.branchesMatch b.curr.branch = false)) := by
  obtain ⟨items0, pid2, hp, hfil⟩ := Build_ok o b items hB
  have hsub : items.Sublist items0 := by
    rw [hfil]
    exact filterItems_sublist items0
  obtain ⟨_, hbounds, hpair0⟩ := processYamls_ok o b _ 1 items0 pid2 hp
  have hpairItems : List.Pairwise (fun i j : buildItem => i.proc.pid < j.proc.pid)
      items := List.Pairwise.sublist hsub hpair0
  constructor
  · intro q hq
    rw [setBuildStepsOnBuild_procs, hbl, List.nil_append] at hq
    rw [show items.length = (items.map (fun item => item.proc)).length by
          simp] at hq
    rw [List.drop_left] at hq
    obtain ⟨item, hitem, hppid, hstate⟩ := runItems_prov bl.id items _ q hq
    constructor
    · by_cases hsk : item.proc.state = .skipped
      · rw [hsk] at hstate
        simp at hstate
        exact Or.inr hstate
      · rw [if_neg hsk] at hstate
        exact Or.inl hstate
    · constructor
      · intro hqs
        refine ⟨item, hitem, hppid.symm, ?_⟩
        by_cases hsk : item.proc.state = .skipped
        · exact hsk
        · rw [if_neg hsk] at hstate
          rw [hstate] at hqs
          cases hqs
      · rintro ⟨it, hit, hpid, hsk⟩
        have : it = item := by
          refine pid_inj_of_pairwise items hpairItems it hit item hitem ?_
          rw [hpid, hppid]
        rw [this] at hsk
        rw [hsk] at hstate
        simpa using hstate
  · intro it hit
    have hit0 : it ∈ items0 := hsub.subset hit
    obtain ⟨_, _, y, hy, axes, hmat, axis, haxis, hax⟩ := hbounds it hit0
    obtain ⟨_, _, _, _, _, _, hstates, parsed, hpo, _, hiff⟩ :=
      processAxis_ok_some o b y axis it.proc.pid it hax
    exact ⟨hstates, y, hy, axes, hmat, axis, haxis, parsed, hpo, hiff⟩

/-- Concrete oracle for the C4 witness: the parsed definition's branch
filter accepts only "main". -/
def oracleC4 : Oracles :=
  { parseMatrix := fun _ => .ok [],
    parseYaml := fun _ => .ok { branchesMatch := fun br => br == gs "main" },
    lint := fun _ _ => none,
    envsubstEval := fun y _ => .ok y,
    metadataFromStruct := fun _ _ _ _ _ => {},
    setPlatform := fun md _ => md,
    compile := fun _ => { stages := [{ steps := [{}, {}] }] } }

/-- Concrete builder for the C4 witness: the current branch is "dev", so
the branch filter does not match. -/
def builderC4 : procBuilder :=
  { curr := { branch := gs "dev" },
    yamls := [{ name := gs "a.yml", data := gs "D" }] }

/-- The items the C4 witness plan produces. -/
def itemsC4 : List buildItem :=
  (procBuilder.Build oracleC4 builderC4).toOption.getD []

/-- C4 witness: the skip theorem applied to a concrete plan whose single
item mismatches the current branch; its item and both steps are Skipped. -/
theorem C4_witness :
    (∀ q ∈ ((setBuildStepsOnBuild {} itemsC4).procs).drop itemsC4.length,
      (q.state = .pending ∨ q.state = .skipped) ∧
      (q.state = .skipped ↔
        ∃ it ∈ itemsC4, it.proc.pid = q.ppid ∧ it.proc.state = .skipped)) ∧
    (∀ it ∈ itemsC4,
      (it.proc.state = .pending ∨ it.proc.state = .skipped) ∧
      ∃ y ∈ sortByName builderC4.yamls, ∃ axes,
        oracleC4.parseMatrix y.data = .ok axes ∧
        ∃ axis ∈ (if axes = [] then [[]] else axes), ∃ parsed,
          parsedOf oracleC4 builderC4 y axis it.proc.pid = .ok parsed ∧
          (it.proc.state = .skipped ↔
            parsed.branchesMatch builderC4.curr.branch = false)) :=
  C4_skipped_iff_branch_mismatch oracleC4 builderC4 {} itemsC4 (by rfl) rfl

/-- Concrete oracle for the C6 counterexample: the envsubst evaluator
resolves the single placeholder K through the callback (modelling a
document that is exactly one ${K} placeholder), and the parser records the
substituted text in the labels so the plan output reveals it; the metadata
environment binds K to "metav". -/
def oracleC6 : Oracles :=
  { parseMatrix := fun _ => .ok [[(gs "K", gs "axisv")]],
    parseYaml := fun s => .ok { labels := some [(gs "SUB", s)] },
    lint := fun _ _ => none,
    envsubstEval := fun _ f => .ok (f (gs "K")),
    metadataFromStruct := fun _ _ _ _ _ => { environ := [(gs "K", gs "metav")] },
    setPlatform := fun md _ => md,
    compile := fun _ => { stages := [{ steps := [{}] }] } }

/-- Concrete builder for the C6 counterexample: the caller-supplied extra
environment binds K to "extrav". -/
def builderC6 : procBuilder :=
  { yamls := [{ name := gs "a.yml", data := gs "DOC" }],
    envs := [(gs "K", gs "extrav")] }

/-- C6 (corrected, counterexample): with K bound to "metav" by the
metadata, to "axisv" by the matrix axis, and to "extrav" by the
caller-supplied extra environment, the substituted document carries
"axisv": the extra environment does not take precedence during placeholder
substitution — it is never consulted there (it is only passed to the
compiler). -/
theorem C6_counterexample :
    (procBuilder.Build oracleC6 builderC6).map
        (fun items => items.map (fun it => it.labels)) =
      .ok [some [(gs "SUB", gs "axisv")]] ∧
    lookupEnv builderC6.envs (gs "K") = some (gs "extrav") ∧
    gs "axisv" ≠ gs "extrav" := by
  refine ⟨by rfl, by rfl, by decide⟩
